import Mathlib

/-!
Verification of the format-preserving INI document model of
`Settings.py` (class `IniDocument` and the value classifier of
`IniEditorWidget`).

Modelling conventions
- Python text (`str`) is modelled as `List Nat` of Unicode code points;
  file contents (bytes) are modelled as `List Nat` of byte values.
- `open(path, "r", encoding="utf-8", errors="replace")` followed by
  `f.read()` is modelled by `pyReadText`: UTF-8 decoding with U+FFFD
  replacement, then universal-newline translation (text mode translates
  `\r\n` and lone `\r` to `\n` on reading).
- `open(path, "w", encoding="utf-8", errors="replace")` followed by
  `f.writelines(...)` is modelled by `pyWriteBytes linesep`: each `\n`
  written is translated to `os.linesep` (a parameter here), then the
  text is UTF-8 encoded.
- The two regular expressions `_SECTION_RE` and `_KEYVAL_RE` are
  modelled by direct functional matchers (`matchSection`,
  `matchKeyVal`) reproducing the backtracking semantics of
  `re.match` on those patterns.
- Character predicates (`\s`, `str.strip`, `str.lower`, `\d`,
  `int(...)`, `float(...)`) are modelled over their documented
  character sets; case mapping is modelled on ASCII letters, which
  covers every literal the program compares against.
-/

set_option maxHeartbeats 1600000

namespace HSSettings

/-- Code points of a Lean string literal, used to write Python string
values compactly. -/
def pstr (s : String) : List Nat := s.toList.map Char.toNat

/-- Whitespace characters of Python `str`: the set matched by `\s` in
`re` for text patterns and stripped by `str.strip()`. -/
def pySpaceChars : List Nat :=
  [9, 10, 11, 12, 13, 28, 29, 30, 31, 32, 133, 160, 5760,
   8192, 8193, 8194, 8195, 8196, 8197, 8198, 8199, 8200, 8201, 8202,
   8232, 8233, 8239, 8287, 12288]

/-- Decide whether a code point is Python whitespace. -/
def pyIsSpace (c : Nat) : Bool := pySpaceChars.contains c

/-- Line-boundary characters of `str.splitlines` (note: `\x1f`, NBSP
and the other plain spaces are not boundaries). -/
def pyBreakChars : List Nat := [10, 11, 12, 13, 28, 29, 30, 133, 8232, 8233]

/-- Decide whether a code point ends a line for `str.splitlines`. -/
def pyIsLineBreak (c : Nat) : Bool := pyBreakChars.contains c

/-- Model of `str.strip()`. -/
def pyStrip (l : List Nat) : List Nat :=
  ((l.dropWhile pyIsSpace).reverse.dropWhile pyIsSpace).reverse

/-- Model of `str.lower()` on the ASCII range (the program only
compares lowered text against ASCII literals). -/
def lowerAscii (l : List Nat) : List Nat :=
  l.map (fun c => if 65 ≤ c ∧ c ≤ 90 then c + 32 else c)

/-- Unicode scalar values: the code points a (well-formed) Python
string obtained by decoding holds. -/
def ScalarCP (c : Nat) : Prop := c < 0x110000 ∧ ¬(0xD800 ≤ c ∧ c < 0xE000)

instance (c : Nat) : Decidable (ScalarCP c) := by unfold ScalarCP; infer_instance

/-- UTF-8 encoding of one code point, with Python's
`errors="replace"` behaviour on encoding: an unencodable code point
(a surrogate) is written as `?`. -/
def utf8EncodeChar (c : Nat) : List Nat :=
  if c < 0x80 then [c]
  else if c < 0x800 then [0xC0 + c / 0x40, 0x80 + c % 0x40]
  else if 0xD800 ≤ c ∧ c < 0xE000 then [0x3F]
  else if c < 0x10000 then
    [0xE0 + c / 0x1000, 0x80 + c / 0x40 % 0x40, 0x80 + c % 0x40]
  else if c < 0x110000 then
    [0xF0 + c / 0x40000, 0x80 + c / 0x1000 % 0x40, 0x80 + c / 0x40 % 0x40,
     0x80 + c % 0x40]
  else [0x3F]

/-- UTF-8 encoding of a whole text. -/
def utf8Encode (s : List Nat) : List Nat := (s.map utf8EncodeChar).flatten

/-- One step of Python's UTF-8 decoder with `errors="replace"`: given
the first byte and the remaining bytes, return the decoded code point
(U+FFFD on an ill-formed sequence) and how many extra bytes beyond the
first are consumed. -/
def utf8DecodeStep (b0 : Nat) (rest : List Nat) : Nat × Nat :=
  if b0 < 0x80 then (b0, 0)
  else if b0 < 0xC2 then (0xFFFD, 0)
  else if b0 < 0xE0 then
    match rest with
    | b1 :: _ =>
      if 0x80 ≤ b1 ∧ b1 < 0xC0 then ((b0 - 0xC0) * 0x40 + (b1 - 0x80), 1)
      else (0xFFFD, 0)
    | [] => (0xFFFD, 0)
  else if b0 < 0xF0 then
    let lo := if b0 = 0xE0 then 0xA0 else 0x80
    let hi := if b0 = 0xED then 0xA0 else 0xC0
    match rest with
    | b1 :: rest1 =>
      if lo ≤ b1 ∧ b1 < hi then
        match rest1 with
        | b2 :: _ =>
          if 0x80 ≤ b2 ∧ b2 < 0xC0 then
            ((b0 - 0xE0) * 0x1000 + (b1 - 0x80) * 0x40 + (b2 - 0x80), 2)
          else (0xFFFD, 1)
        | [] => (0xFFFD, 1)
      else (0xFFFD, 0)
    | [] => (0xFFFD, 0)
  else if b0 < 0xF5 then
    let lo := if b0 = 0xF0 then 0x90 else 0x80
    let hi := if b0 = 0xF4 then 0x90 else 0xC0
    match rest with
    | b1 :: rest1 =>
      if lo ≤ b1 ∧ b1 < hi then
        match rest1 with
        | b2 :: rest2 =>
          if 0x80 ≤ b2 ∧ b2 < 0xC0 then
            match rest2 with
            | b3 :: _ =>
              if 0x80 ≤ b3 ∧ b3 < 0xC0 then
                ((b0 - 0xF0) * 0x40000 + (b1 - 0x80) * 0x1000 +
                  (b2 - 0x80) * 0x40 + (b3 - 0x80), 3)
              else (0xFFFD, 2)
            | [] => (0xFFFD, 2)
          else (0xFFFD, 1)
        | [] => (0xFFFD, 1)
      else (0xFFFD, 0)
    | [] => (0xFFFD, 0)
  else (0xFFFD, 0)

/-- Decoding loop, with fuel for structural recursion; each step
consumes at least one byte, so `l.length` fuel always suffices. -/
def utf8DecodeLoop : Nat → List Nat → List Nat
  | _, [] => []
  | 0, _ :: _ => []
  | fuel + 1, b0 :: rest =>
    let p := utf8DecodeStep b0 rest
    p.1 :: utf8DecodeLoop fuel (rest.drop p.2)

/-- Python's UTF-8 decoder with `errors="replace"`. -/
def utf8DecodeReplace (l : List Nat) : List Nat := utf8DecodeLoop l.length l

/-- Worker of the universal-newline translation, carrying the current
character: `\r\n` and lone `\r` become `\n`. -/
def pyUnivNlGo : Nat → List Nat → List Nat
  | c, [] => if c = 13 then [10] else [c]
  | c, c2 :: rest =>
    if c = 13 then
      if c2 = 10 then
        match rest with
        | [] => [10]
        | c3 :: rest2 => 10 :: pyUnivNlGo c3 rest2
      else 10 :: pyUnivNlGo c2 rest
    else c :: pyUnivNlGo c2 rest

/-- Universal-newline translation performed by text-mode reading. -/
def pyUnivNl : List Nat → List Nat
  | [] => []
  | c :: rest => pyUnivNlGo c rest

/-- Text obtained by `open(path, "r", encoding="utf-8",
errors="replace")` followed by `f.read()`. -/
def pyReadText (b : List Nat) : List Nat := pyUnivNl (utf8DecodeReplace b)

/-- Bytes produced by writing a text in text mode with UTF-8 encoding:
every `\n` is translated to the platform separator `linesep`, then the
text is encoded. -/
def pyWriteBytes (linesep : List Nat) (t : List Nat) : List Nat :=
  utf8Encode ((t.map (fun c => if c = 10 then linesep else [c])).flatten)

/-- Worker of `splitlines(keepends=True)`; `acc` holds the reversed
current line. -/
def pySplitAux (acc : List Nat) : List Nat → List (List Nat)
  | [] => if acc = [] then [] else [acc.reverse]
  | 13 :: 10 :: rest => (acc.reverse ++ [13, 10]) :: pySplitAux [] rest
  | c :: rest =>
    if pyIsLineBreak c then (acc.reverse ++ [c]) :: pySplitAux [] rest
    else pySplitAux (c :: acc) rest

/-- Model of `str.splitlines(True)`: split into lines keeping each
line's terminator. -/
def pySplitlinesKeepends (t : List Nat) : List (List Nat) := pySplitAux [] t

/-- Characters allowed in the key group of `_KEYVAL_RE`
(`[^=;\r\n]`). -/
def isKeyChar (c : Nat) : Bool := c != 61 && c != 59 && c != 13 && c != 10

/-- Model of `_SECTION_RE.match`: `^\s*\[(?P<section>[^\]]+)\]\s*$`,
returning the raw group between the brackets. The `[^\]]+` group can
not cross a `]`, so it is exactly the text up to the first `]`; the
final `\s*$` requires everything after that `]` to be whitespace. -/
def matchSection (l : List Nat) : Option (List Nat) :=
  match l.dropWhile pyIsSpace with
  | c :: rest =>
    if c = 91 then
      let inner := rest.takeWhile (fun x => x != 93)
      match rest.dropWhile (fun x => x != 93) with
      | c2 :: tail =>
        if c2 = 93 ∧ inner ≠ [] ∧ tail.all pyIsSpace then some inner else none
      | [] => none
    else none
  | [] => none

/-- Groups of a successful `_KEYVAL_RE.match`. Note that `suffix`,
being `\s*` right before `$`, greedily captures the line terminator
itself when the line ends in one. -/
structure KVMatch where
  pfx : List Nat
  key : List Nat
  val : List Nat
  suffix : List Nat
deriving DecidableEq, Repr

/-- Close the lazy key group: skip `\s*`, then require `=`; returns
the remainder after the `=`. -/
def closeKey (rest : List Nat) : Option (List Nat) :=
  match rest.dropWhile pyIsSpace with
  | c :: t => if c = 61 then some t else none
  | [] => none

/-- Lazy search for the key group `(?P<key>[^=;\r\n]+?)\s*=`: extend
the key one character at a time, attempting to close it before each
extension. Returns the key group and the remainder after `=`. -/
def findKey (acc : List Nat) : List Nat → Option (List Nat × List Nat)
  | [] => none
  | c :: rest =>
    if isKeyChar c then
      match closeKey rest with
      | some t => some (acc ++ [c], t)
      | none => findKey (acc ++ [c]) rest
    else none

/-- Attempt `_KEYVAL_RE` with a fixed length `p` for the greedy
leading `(?P<prefix>\s*)` group. After the `=`, the greedy `\s*` is
skipped, the greedy trailing `(?P<suffix>\s*)$` takes the maximal
whitespace suffix, and `(?P<val>.*?)` takes the remainder, which
must not contain `\n` (`.` does not match `\n`). -/
def kvAttempt (p : Nat) (l : List Nat) : Option KVMatch :=
  match findKey [] (l.drop p) with
  | none => none
  | some (k, tail) =>
    let t := tail.dropWhile pyIsSpace
    let sfx := (t.reverse.takeWhile pyIsSpace).reverse
    let v := (t.reverse.dropWhile pyIsSpace).reverse
    if v.contains 10 then none else some ⟨l.take p, k, v, sfx⟩

/-- Backtracking over the greedy leading `\s*`: try the maximal
whitespace run first, then shorter ones. -/
def kvSearch (l : List Nat) : Nat → Option KVMatch
  | 0 => kvAttempt 0 l
  | p + 1 =>
    match kvAttempt (p + 1) l with
    | some r => some r
    | none => kvSearch l p

/-- Model of `_KEYVAL_RE.match`. -/
def matchKeyVal (l : List Nat) : Option KVMatch :=
  kvSearch l (l.takeWhile pyIsSpace).length

/-- Model of `str.rstrip("\r\n")` applied to the value group. -/
def rstripCRLF (l : List Nat) : List Nat :=
  (l.reverse.dropWhile (fun c => c == 13 || c == 10)).reverse

/-- Model of `_norm_section`. -/
def normSection (s : List Nat) : List Nat := pyStrip s

/-- Model of `_norm_key`. -/
def normKey (k : List Nat) : List Nat := pyStrip k

/-- Model of the dataclass `IniValueRef`. The Python fields `section`
and `prefix` are Lean keywords and are rendered `sect` and `pfx`. -/
structure IniValueRef where
  sect : List Nat
  key : List Nat
  value : List Nat
  line_index : Nat
  pfx : List Nat
  suffix : List Nat
deriving DecidableEq, Repr

/-- Key type of the `refs` dictionary: `(section, key)`. -/
abbrev RefKey := List Nat × List Nat

/-- The `refs` dictionary, as an insertion-ordered association list
(Python dicts preserve insertion order; assignment to an existing key
keeps its position). -/
abbrev Refs := List (RefKey × IniValueRef)

/-- Dictionary lookup. -/
def lookupRef : Refs → RefKey → Option IniValueRef
  | [], _ => none
  | (k, r) :: rest, q => if k = q then some r else lookupRef rest q

/-- Replacement applied to one association pair by dictionary
assignment on an existing key. -/
def replaceEntry (k : RefKey) (r : IniValueRef) (p : RefKey × IniValueRef) :
    RefKey × IniValueRef :=
  if p.1 = k then (k, r) else p

/-- Dictionary assignment `refs[key] = ref`: replace in place when the
key is present, append otherwise. -/
def upsert (l : Refs) (k : RefKey) (r : IniValueRef) : Refs :=
  if (lookupRef l k).isSome then l.map (replaceEntry k r) else l ++ [(k, r)]

/-- Model of the state of an `IniDocument` object (`path` and
`_loaded` are not needed: the path's current contents are passed where
the code re-reads them). -/
structure IniDocument where
  lines : List (List Nat)
  refs : Refs
  section_order : List (List Nat)
deriving DecidableEq, Repr

/-- State of the scanning loop inside `IniDocument.load`. -/
structure ScanState where
  cur : List Nat
  order : List (List Nat)
  refs : Refs
  idx : Nat
deriving Repr

/-- Body of the `for idx, raw in enumerate(self.lines)` loop of
`IniDocument.load`, for one line. `seen_sections` is the set of
elements of `order`, so membership in `order` models it. -/
def scanLine (st : ScanState) (raw : List Nat) : ScanState :=
  match matchSection raw with
  | some inner =>
    let c := normSection inner
    { st with cur := c,
              order := if c ∈ st.order then st.order else st.order ++ [c],
              idx := st.idx + 1 }
  | none =>
    match matchKeyVal raw with
    | none => { st with idx := st.idx + 1 }
    | some kv =>
      let k := normKey kv.key
      let v := rstripCRLF kv.val
      let s := normSection st.cur
      { st with
          refs := upsert st.refs (s, k)
            ⟨s, k, v, st.idx, kv.pfx, kv.suffix⟩,
          idx := st.idx + 1 }

/-- The whole scanning loop. -/
def scanLines (st : ScanState) (ls : List (List Nat)) : ScanState :=
  ls.foldl scanLine st

/-- Initial scan state: empty current section, empty registries,
line index 0. -/
def initState : ScanState := ⟨[], [], [], 0⟩

/-- Model of `IniDocument.load` from already-read text: split into
lines keeping terminators, then scan. -/
def loadDoc (t : List Nat) : IniDocument :=
  let ls := pySplitlinesKeepends t
  let st := scanLines initState ls
  ⟨ls, st.refs, st.order⟩

/-- Model of `IniDocument.load` from the file's bytes. -/
def loadFile (b : List Nat) : IniDocument := loadDoc (pyReadText b)

/-- Model of `IniDocument.load` including the existence check: `None`
models a path for which `os.path.isfile` is false, which raises
`FileNotFoundError`. -/
def loadFromDisk : Option (List Nat) → Except Unit IniDocument
  | none => Except.error ()
  | some b => Except.ok (loadFile b)

/-- Model of `IniDocument.get`. -/
def IniDocument.get (doc : IniDocument) (sec key : List Nat) : Option (List Nat) :=
  (lookupRef doc.refs (normSection sec, normKey key)).map IniValueRef.value

/-- Worker for `_find_section_line_index`, carrying the running
index. -/
def findSectionAux (want : List Nat) (i : Nat) : List (List Nat) → Option Nat
  | [] => none
  | raw :: rest =>
    match matchSection raw with
    | some inner =>
      if normSection inner = want then some i else findSectionAux want (i + 1) rest
    | none => findSectionAux want (i + 1) rest

/-- Model of `IniDocument._find_section_line_index`. -/
def findSectionLineIndex (want : List Nat) (ls : List (List Nat)) : Option Nat :=
  findSectionAux (normSection want) 0 ls

/-- Worker for `_find_section_end_index`. -/
def findSectionEndAux (i : Nat) : List (List Nat) → Nat
  | [] => i
  | raw :: rest =>
    if (matchSection raw).isSome then i else findSectionEndAux (i + 1) rest

/-- Model of `IniDocument._find_section_end_index`. -/
def findSectionEndIndex (ls : List (List Nat)) (start : Nat) : Nat :=
  findSectionEndAux start (ls.drop start)

/-- Model of `list.insert(i, x)` for `i ≤ len`. -/
def listInsertAt (l : List (List Nat)) (i : Nat) (x : List Nat) : List (List Nat) :=
  l.take i ++ [x] ++ l.drop i

/-- Model of `IniDocument.set`. `disk` is the current content (bytes)
of the file at `self.path`: on the insertion path the code calls
`_reindex_refs_from`, which re-runs `load()` and therefore re-reads
the file from disk, replacing `lines`, `refs` and `section_order`
with freshly loaded ones and discarding the just-inserted line. -/
def IniDocument.set (doc : IniDocument) (disk : List Nat)
    (sec key value : List Nat) : IniDocument :=
  let s := normSection sec
  let k := normKey key
  match lookupRef doc.refs (s, k) with
  | some ref =>
    let newline : List Nat :=
      if (doc.lines.getD ref.line_index []).getLast? = some 10 then [10] else []
    { doc with
        lines := doc.lines.set ref.line_index
          (ref.pfx ++ ref.key ++ [61] ++ value ++ ref.suffix ++ newline),
        refs := upsert doc.refs (s, k) { ref with value := value } }
  | none =>
    let insert_at :=
      match findSectionLineIndex s doc.lines with
      | some i => findSectionEndIndex doc.lines (i + 1)
      | none => doc.lines.length
    let _transientLines := listInsertAt doc.lines insert_at (k ++ [61] ++ value ++ [10])
    let _transientRefs := upsert doc.refs (s, k) ⟨s, k, value, insert_at, [], []⟩
    let d := loadFile disk
    { d with
        section_order :=
          if s ≠ [] ∧ s ∉ d.section_order then d.section_order ++ [s]
          else d.section_order }

/-- Model of `IniDocument.save`: write all lines back in text mode. -/
def IniDocument.save (doc : IniDocument) (linesep : List Nat) : List Nat :=
  pyWriteBytes linesep doc.lines.flatten

/-- Lowered spellings recognized as boolean true by `_is_bool_text`. -/
def boolTrueTexts : List (List Nat) := [pstr "true", pstr "1", pstr "yes", pstr "on"]

/-- Lowered spellings recognized as boolean false by `_is_bool_text`. -/
def boolFalseTexts : List (List Nat) := [pstr "false", pstr "0", pstr "no", pstr "off"]

/-- Model of `_is_bool_text`. -/
def isBoolText (v : List Nat) : Option Bool :=
  let t := lowerAscii (pyStrip v)
  if t ∈ boolTrueTexts then some true
  else if t ∈ boolFalseTexts then some false
  else none

/-- Decide whether a code point is an ASCII decimal digit. -/
def isDecDigit (c : Nat) : Bool := 48 ≤ c && c ≤ 57

/-- Decide whether a code point is a hexadecimal digit
(`[0-9a-fA-F]`). -/
def isHexDigit (c : Nat) : Bool :=
  (48 ≤ c && c ≤ 57) || (97 ≤ c && c ≤ 102) || (65 ≤ c && c ≤ 70)

/-- Numeric value of a hexadecimal digit. -/
def hexVal (c : Nat) : Nat :=
  if c ≤ 57 then c - 48 else if 97 ≤ c then c - 87 else c - 55

/-- Model of `_HEX_COLOR_RE.match`: `^\s*0x(hex{6}|hex{8})\s*$`,
returning the digits group. `_parse_hex_color` succeeds exactly when
this matches, so the model keeps only the match. -/
def matchHexColor (v : List Nat) : Option (List Nat) :=
  match v.dropWhile pyIsSpace with
  | 48 :: 120 :: rest =>
    let hx := rest.takeWhile isHexDigit
    let tail := rest.drop hx.length
    if (hx.length = 6 ∨ hx.length = 8) ∧ tail.all pyIsSpace then some hx else none
  | _ => none

/-- Consume the longest run `digit (_? digit)*` starting after one
digit already read, following Python's numeric-literal underscore rule
(an underscore must sit between two digits). -/
def digitRunAfter (isDig : Nat → Bool) : List Nat → List Nat
  | 95 :: c :: rest => if isDig c then digitRunAfter isDig rest else 95 :: c :: rest
  | c :: rest => if isDig c then digitRunAfter isDig rest else c :: rest
  | [] => []

/-- Parse a nonempty underscore-grouped digit run and return the
remainder, or `none` when the input does not start with a digit. -/
def digitRun (isDig : Nat → Bool) : List Nat → Option (List Nat)
  | c :: rest => if isDig c then some (digitRunAfter isDig rest) else none
  | [] => none

/-- Numeric value of a digit list with underscores removed. -/
def digitsValue (dv : Nat → Nat) (base : Nat) (l : List Nat) : Nat :=
  (l.filter (fun c => c != 95)).foldl (fun acc c => acc * base + dv c) 0

/-- Underscore-grouped digit prefix of a list (the part `digitRun`
consumes). -/
def digitPart (isDig : Nat → Bool) (l : List Nat) : List Nat :=
  match digitRun isDig l with
  | some rest => l.take (l.length - rest.length)
  | none => []

/-- Model of `_parse_int`: strip, then `int(s, 16)` when the lowered
text starts with `0x`, else `int(s, 10)`. Digits are modelled over
ASCII (CPython also accepts non-ASCII decimal digits, which the
program never feeds it). -/
def pyParseInt (v : List Nat) : Option Int :=
  let s := pyStrip v
  if (lowerAscii s).take 2 = [48, 120] then
    match s with
    | _ :: _ :: rest =>
      let rest' := match rest with
        | 95 :: r => r
        | r => r
      match digitRun isHexDigit rest' with
      | some [] => some (Int.ofNat (digitsValue hexVal 16 (digitPart isHexDigit rest')))
      | _ => none
    | _ => none
  else
    match s with
    | 43 :: rest =>
      match digitRun isDecDigit rest with
      | some [] => some (Int.ofNat (digitsValue (fun c => c - 48) 10 (digitPart isDecDigit rest)))
      | _ => none
    | 45 :: rest =>
      match digitRun isDecDigit rest with
      | some [] => some (-(Int.ofNat (digitsValue (fun c => c - 48) 10 (digitPart isDecDigit rest))))
      | _ => none
    | rest =>
      match digitRun isDecDigit rest with
      | some [] => some (Int.ofNat (digitsValue (fun c => c - 48) 10 (digitPart isDecDigit rest)))
      | _ => none

/-- Model of `re.fullmatch(r"\s*-?\d+\s*", value)` over ASCII
digits. -/
def intRegexFull (v : List Nat) : Bool :=
  let a := v.dropWhile pyIsSpace
  let b := match a with
    | 45 :: r => r
    | _ => a
  let ds := b.takeWhile isDecDigit
  !ds.isEmpty && (b.drop ds.length).all pyIsSpace

/-- Model of `re.fullmatch(r"\s*-?\d+(\.\d+)?\s*", value)` over ASCII
digits. -/
def floatRegexFull (v : List Nat) : Bool :=
  let a := v.dropWhile pyIsSpace
  let b := match a with
    | 45 :: r => r
    | _ => a
  let ds := b.takeWhile isDecDigit
  if ds.isEmpty then false
  else
    match b.drop ds.length with
    | 46 :: r2 =>
      let ds2 := r2.takeWhile isDecDigit
      !ds2.isEmpty && (r2.drop ds2.length).all pyIsSpace
    | r => r.all pyIsSpace

/-- Exponent-or-end tail of a Python float literal. -/
def floatExpTail : List Nat → Bool
  | [] => true
  | 101 :: rest =>
    let r := match rest with
      | 43 :: x => x
      | 45 :: x => x
      | x => x
    match digitRun isDecDigit r with
    | some [] => true
    | _ => false
  | _ => false

/-- Decide whether `float(s)` succeeds on an already-stripped string
`s` (ASCII syntax: optional sign, `inf`/`infinity`/`nan`, or a decimal
literal with optional fraction and exponent, underscores between
digits). Only acceptance is needed: the program never reads the value
back except through the GUI control. -/
def floatAccepts (s : List Nat) : Bool :=
  let l := lowerAscii s
  let body := match l with
    | 43 :: r => r
    | 45 :: r => r
    | r => r
  if body = pstr "inf" || body = pstr "infinity" || body = pstr "nan" then true
  else
    match digitRun isDecDigit body with
    | some rest =>
      match rest with
      | 46 :: r2 =>
        let r3 := match digitRun isDecDigit r2 with
          | some x => x
          | none => r2
        floatExpTail r3
      | r => floatExpTail r
    | none =>
      match body with
      | 46 :: r2 =>
        match digitRun isDecDigit r2 with
        | some r3 => floatExpTail r3
        | none => false
      | _ => false

/-- Editing affordances chosen by `IniEditorWidget._add_control`, in
the order the code tests them. -/
inductive ValueClass
  | bool
  | color
  | int
  | float
  | text
deriving DecidableEq, Repr

/-- Model of the control-selection logic of `_add_control`: boolean
checkbox, colour editor, integer spin box (when `_parse_int` succeeds
and the text is `0x`-prefixed or matches the plain-integer pattern),
float spin box (when `_parse_float` succeeds and the text matches the
plain-float pattern), else free text. -/
def classify (v : List Nat) : ValueClass :=
  match isBoolText v with
  | some _ => ValueClass.bool
  | none =>
    if (matchHexColor v).isSome then ValueClass.color
    else if (pyParseInt v).isSome &&
        ((lowerAscii (pyStrip v)).take 2 == [48, 120] || intRegexFull v) then
      ValueClass.int
    else if floatAccepts (pyStrip v) && floatRegexFull v then ValueClass.float
    else ValueClass.text

/-- Range bounds set on the integer spin box. -/
def spinMin : Int := -2147483648

/-- Upper bound of the integer spin box. -/
def spinMax : Int := 2147483647

/-- Clamping performed by `QSpinBox.setValue`. -/
def clampSpin (i : Int) : Int := max spinMin (min spinMax i)

/-- Decimal-digit loop with fuel (`n` itself always suffices). -/
def natDecLoop : Nat → Nat → List Nat
  | 0, n => [48 + n % 10]
  | fuel + 1, n => if n < 10 then [48 + n] else natDecLoop fuel (n / 10) ++ [48 + n % 10]

/-- Decimal digits of a natural number. -/
def natDec (n : Nat) : List Nat := natDecLoop n n

/-- Model of `str()` on an `int`. -/
def intDecString (i : Int) : List Nat :=
  if i < 0 then 45 :: natDec i.natAbs else natDec i.toNat

/-- Value written back from a float spin box or a free-text control:
the float case is not modelled (IEEE rounding and `%.6f` formatting),
the free-text case returns the text unchanged. -/
def floatOrText (v : List Nat) : Option (List Nat) :=
  if floatAccepts (pyStrip v) && floatRegexFull v then none
  else some v

/-- Value `_apply_controls_to_doc` sends to `doc.set` for a control
the user never touched, as a function of the value the control was
built from: checkboxes yield `"true"`/`"false"`, colour editors yield
the stripped original text, integer spin boxes yield the clamped
value in decimal, float spin boxes are not modelled (`none`), and
free-text controls yield the text unchanged. -/
def writeBackUntouched (v : List Nat) : Option (List Nat) :=
  match isBoolText v with
  | some b => some (if b then pstr "true" else pstr "false")
  | none =>
    if (matchHexColor v).isSome then some (pyStrip v)
    else if (pyParseInt v).isSome &&
        ((lowerAscii (pyStrip v)).take 2 == [48, 120] || intRegexFull v) then
      some (intDecString (clampSpin ((pyParseInt v).getD 0)))
    else floatOrText v

/-! ### Helper lemmas about stripping -/

theorem pyStrip_eq_rdropWhile (l : List Nat) :
    pyStrip l = List.rdropWhile pyIsSpace (l.dropWhile pyIsSpace) := rfl

theorem pyStrip_idem (l : List Nat) : pyStrip (pyStrip l) = pyStrip l := by
  rw [pyStrip_eq_rdropWhile, pyStrip_eq_rdropWhile]
  have hxdrop : (l.dropWhile pyIsSpace).dropWhile pyIsSpace = l.dropWhile pyIsSpace :=
    List.dropWhile_idempotent _ _
  have hpre : List.rdropWhile pyIsSpace (l.dropWhile pyIsSpace) <+: l.dropWhile pyIsSpace :=
    List.rdropWhile_prefix _ _
  have hdrop : (List.rdropWhile pyIsSpace (l.dropWhile pyIsSpace)).dropWhile pyIsSpace =
      List.rdropWhile pyIsSpace (l.dropWhile pyIsSpace) := by
    rw [List.dropWhile_eq_self_iff]
    intro hl
    have h0 := hpre.getElem hl
    rw [List.get_eq_getElem, h0]
    exact (List.dropWhile_eq_self_iff).mp hxdrop (hl.trans_le hpre.length_le)
  rw [hdrop, List.rdropWhile_idempotent]

theorem normSection_idem (s : List Nat) : normSection (normSection s) = normSection s :=
  pyStrip_idem s

theorem normKey_idem (k : List Nat) : normKey (normKey k) = normKey k :=
  pyStrip_idem k

/-! ### Dictionary lemmas -/

theorem lookupRef_cons (k' : RefKey) (r' : IniValueRef) (tl : Refs) (q : RefKey) :
    lookupRef ((k', r') :: tl) q = if k' = q then some r' else lookupRef tl q := rfl

theorem replaceEntry_pair (k : RefKey) (r : IniValueRef) (k' : RefKey) (r' : IniValueRef) :
    replaceEntry k r (k', r') = if k' = k then (k, r) else (k', r') := rfl

theorem lookupRef_map_replace (l : Refs) (k : RefKey) (r : IniValueRef) :
    lookupRef (l.map (replaceEntry k r)) k =
      if (lookupRef l k).isSome then some r else none := by
  induction l with
  | nil => simp [lookupRef]
  | cons hd tl ih =>
    obtain ⟨k', r'⟩ := hd
    rw [List.map_cons, replaceEntry_pair]
    by_cases hk : k' = k
    · subst hk
      rw [if_pos rfl, lookupRef_cons, if_pos rfl, lookupRef_cons, if_pos rfl]
      simp
    · rw [if_neg hk, lookupRef_cons, if_neg hk, lookupRef_cons, if_neg hk, ih]

theorem lookupRef_append_singleton (l : Refs) (k : RefKey) (r : IniValueRef) (q : RefKey) :
    lookupRef (l ++ [(k, r)]) q =
      match lookupRef l q with
      | some x => some x
      | none => if k = q then some r else none := by
  induction l with
  | nil => simp [lookupRef]
  | cons hd tl ih =>
    obtain ⟨k', r'⟩ := hd
    rw [List.cons_append, lookupRef_cons, lookupRef_cons]
    by_cases hk : k' = q
    · rw [if_pos hk, if_pos hk]
    · rw [if_neg hk, if_neg hk, ih]

theorem lookupRef_upsert_self (l : Refs) (k : RefKey) (r : IniValueRef) :
    lookupRef (upsert l k r) k = some r := by
  unfold upsert
  by_cases h : (lookupRef l k).isSome
  · rw [if_pos h, lookupRef_map_replace, if_pos h]
  · rw [if_neg h, lookupRef_append_singleton]
    have : lookupRef l k = none := by
      revert h; cases lookupRef l k <;> simp
    rw [this, if_pos rfl]

theorem lookupRef_map_replace_ne (l : Refs) (k : RefKey) (r : IniValueRef) (q : RefKey)
    (h : q ≠ k) : lookupRef (l.map (replaceEntry k r)) q = lookupRef l q := by
  induction l with
  | nil => rfl
  | cons hd tl ih =>
    obtain ⟨k', r'⟩ := hd
    rw [List.map_cons, replaceEntry_pair]
    by_cases hk : k' = k
    · subst hk
      rw [if_pos rfl, lookupRef_cons, lookupRef_cons,
        if_neg (Ne.symm h), if_neg (Ne.symm h), ih]
    · rw [if_neg hk, lookupRef_cons, lookupRef_cons]
      by_cases hq : k' = q
      · rw [if_pos hq, if_pos hq]
      · rw [if_neg hq, if_neg hq, ih]

theorem lookupRef_upsert_ne (l : Refs) (k : RefKey) (r : IniValueRef) (q : RefKey)
    (h : q ≠ k) : lookupRef (upsert l k r) q = lookupRef l q := by
  unfold upsert
  by_cases hs : (lookupRef l k).isSome
  · rw [if_pos hs, lookupRef_map_replace_ne l k r q h]
  · rw [if_neg hs, lookupRef_append_singleton]
    cases hcase : lookupRef l q with
    | some x => rfl
    | none => rw [if_neg (Ne.symm h)]

theorem mem_upsert (l : Refs) (k : RefKey) (r : IniValueRef)
    (p : RefKey × IniValueRef) (h : p ∈ upsert l k r) : p ∈ l ∨ p = (k, r) := by
  unfold upsert at h
  by_cases hs : (lookupRef l k).isSome
  · rw [if_pos hs] at h
    rw [List.mem_map] at h
    obtain ⟨x, hx, hfx⟩ := h
    obtain ⟨kx, rx⟩ := x
    rw [replaceEntry_pair] at hfx
    by_cases hxk : kx = k
    · rw [if_pos hxk] at hfx
      exact Or.inr hfx.symm
    · rw [if_neg hxk] at hfx
      exact Or.inl (hfx ▸ hx)
  · rw [if_neg hs, List.mem_append, List.mem_singleton] at h
    exact h

theorem lookupRef_none_map_id (l : Refs) (k : RefKey) (r : IniValueRef)
    (h : lookupRef l k = none) : l.map (replaceEntry k r) = l := by
  induction l with
  | nil => rfl
  | cons hd tl ih =>
    obtain ⟨k', r'⟩ := hd
    rw [lookupRef_cons] at h
    by_cases hk : k' = k
    · rw [if_pos hk] at h
      exact absurd h (by simp)
    · rw [if_neg hk] at h
      rw [List.map_cons, replaceEntry_pair, if_neg hk, ih h]

theorem upsert_upsert (l : Refs) (k : RefKey) (a b : IniValueRef) :
    upsert (upsert l k a) k b = upsert l k b := by
  have hself : lookupRef (upsert l k a) k = some a := lookupRef_upsert_self l k a
  conv_lhs => rw [upsert, hself]
  rw [if_pos (by simp)]
  unfold upsert
  by_cases hs : (lookupRef l k).isSome
  · rw [if_pos hs, if_pos hs, List.map_map]
    apply List.map_congr_left
    intro p _
    obtain ⟨kp, rp⟩ := p
    by_cases hk : kp = k
    · simp [replaceEntry, hk]
    · simp [replaceEntry, hk]
  · rw [if_neg hs, if_neg hs, List.map_append]
    have hnone : lookupRef l k = none := by
      revert hs; cases lookupRef l k <;> simp
    rw [lookupRef_none_map_id l k b hnone]
    simp [replaceEntry_pair]

/-! ### Characterization of one scan step -/

/-- Entry contributed by one line to the registry, given the current
section and the line index, or `none` when the line is a section header
or unparsable. -/
def lineDef (cur : List Nat) (idx : Nat) (raw : List Nat) :
    Option (RefKey × IniValueRef) :=
  match matchSection raw with
  | some _ => none
  | none =>
    match matchKeyVal raw with
    | none => none
    | some kv =>
      let k := normKey kv.key
      let v := rstripCRLF kv.val
      let s := normSection cur
      some ((s, k), ⟨s, k, v, idx, kv.pfx, kv.suffix⟩)

/-- Current section after processing one line. -/
def nextCur (cur : List Nat) (raw : List Nat) : List Nat :=
  match matchSection raw with
  | some inner => normSection inner
  | none => cur

theorem scanLine_refs (st : ScanState) (raw : List Nat) :
    (scanLine st raw).refs =
      match lineDef st.cur st.idx raw with
      | some (sk, r) => upsert st.refs sk r
      | none => st.refs := by
  unfold scanLine lineDef
  cases matchSection raw with
  | some inner => rfl
  | none => cases matchKeyVal raw with
    | some kv => rfl
    | none => rfl

theorem scanLine_cur (st : ScanState) (raw : List Nat) :
    (scanLine st raw).cur = nextCur st.cur raw := by
  unfold scanLine nextCur
  cases matchSection raw with
  | some inner => rfl
  | none => cases matchKeyVal raw with
    | some kv => rfl
    | none => rfl

theorem scanLine_idx (st : ScanState) (raw : List Nat) :
    (scanLine st raw).idx = st.idx + 1 := by
  unfold scanLine
  cases matchSection raw with
  | some inner => rfl
  | none => cases matchKeyVal raw with
    | some kv => rfl
    | none => rfl

theorem scanLines_cons (st : ScanState) (raw : List Nat) (ls : List (List Nat)) :
    scanLines st (raw :: ls) = scanLines (scanLine st raw) ls := rfl

theorem scanLines_append (st : ScanState) (l1 l2 : List (List Nat)) :
    scanLines st (l1 ++ l2) = scanLines (scanLines st l1) l2 :=
  List.foldl_append _ _ _ _

theorem scanLines_idx (st : ScanState) (ls : List (List Nat)) :
    (scanLines st ls).idx = st.idx + ls.length := by
  induction ls generalizing st with
  | nil => simp [scanLines]
  | cons raw rest ih =>
    rw [scanLines_cons, ih, scanLine_idx]
    simp [Nat.add_assoc, Nat.add_comm 1]

/-! ### Global properties of the scan -/

/-- Scan state reached after the first `j` lines of a document. -/
def scanPfx (ls : List (List Nat)) (j : Nat) : ScanState :=
  scanLines initState (ls.take j)

/-- Entry defined by line `j` of a line list, if any: the scan is run
over the preceding lines to determine the current section there. -/
def lineDefAt (ls : List (List Nat)) (j : Nat) : Option (RefKey × IniValueRef) :=
  match ls[j]? with
  | some raw => lineDef (scanPfx ls j).cur (scanPfx ls j).idx raw
  | none => none

theorem lookupRef_mem (l : Refs) (k : RefKey) (r : IniValueRef)
    (h : lookupRef l k = some r) : (k, r) ∈ l := by
  induction l with
  | nil => simp [lookupRef] at h
  | cons hd tl ih =>
    obtain ⟨k', r'⟩ := hd
    rw [lookupRef_cons] at h
    by_cases hk : k' = k
    · rw [if_pos hk] at h
      obtain rfl := Option.some_inj.mp h
      subst hk
      exact List.mem_cons_self _ _
    · rw [if_neg hk] at h
      exact List.mem_cons_of_mem _ (ih h)

theorem lookup_scan_of_no_def (raws : List (List Nat)) (st : ScanState) (sk : RefKey)
    (h : ∀ j raw, raws[j]? = some raw → ∀ e,
      lineDef (scanLines st (raws.take j)).cur (scanLines st (raws.take j)).idx raw ≠
        some (sk, e)) :
    lookupRef (scanLines st raws).refs sk = lookupRef st.refs sk := by
  induction raws generalizing st with
  | nil => rfl
  | cons raw0 rest ih =>
    rw [scanLines_cons]
    have hstep : lookupRef (scanLine st raw0).refs sk = lookupRef st.refs sk := by
      rw [scanLine_refs]
      cases hld : lineDef st.cur st.idx raw0 with
      | none => rfl
      | some p =>
        obtain ⟨sk', e'⟩ := p
        have hne : sk' ≠ sk := by
          intro heq
          exact h 0 raw0 (by simp) e' (by simpa [scanLines, heq] using hld)
        rw [lookupRef_upsert_ne _ _ _ _ (Ne.symm hne)]
    rw [ih (scanLine st raw0) ?_, hstep]
    intro j raw hj e
    have := h (j + 1) raw (by simpa using hj) e
    simpa [List.take_succ_cons, scanLines_cons] using this

theorem mem_scan_refs (raws : List (List Nat)) (st : ScanState)
    (p : RefKey × IniValueRef) (h : p ∈ (scanLines st raws).refs) :
    p ∈ st.refs ∨ ∃ j raw, raws[j]? = some raw ∧
      lineDef (scanLines st (raws.take j)).cur (scanLines st (raws.take j)).idx raw =
        some p := by
  induction raws generalizing st with
  | nil => exact Or.inl h
  | cons raw0 rest ih =>
    rw [scanLines_cons] at h
    rcases ih (scanLine st raw0) h with h1 | ⟨j, raw, hj, hd⟩
    · rw [scanLine_refs] at h1
      cases hld : lineDef st.cur st.idx raw0 with
      | none =>
        rw [hld] at h1
        exact Or.inl h1
      | some q =>
        rw [hld] at h1
        obtain ⟨sk', e'⟩ := q
        rcases mem_upsert _ _ _ _ h1 with h2 | h2
        · exact Or.inl h2
        · right
          exact ⟨0, raw0, by simp, by simpa [scanLines, h2] using hld⟩
    · right
      refine ⟨j + 1, raw, by simpa using hj, ?_⟩
      simpa [List.take_succ_cons, scanLines_cons] using hd

theorem scanLines_decomp (ls : List (List Nat)) (j : Nat) (rawj : List Nat)
    (hj : ls[j]? = some rawj) (st : ScanState) :
    scanLines st ls =
      scanLines (scanLine (scanLines st (ls.take j)) rawj) (ls.drop (j + 1)) := by
  have hlt : j < ls.length := by
    by_contra hge
    rw [List.getElem?_eq_none (by omega)] at hj
    exact Option.noConfusion hj
  conv_lhs => rw [← List.take_append_drop j ls]
  rw [scanLines_append, List.drop_eq_getElem_cons hlt]
  have : ls[j] = rawj := by
    have := List.getElem?_eq_getElem hlt
    rw [hj] at this
    exact (Option.some_inj.mp this).symm
  rw [this, scanLines_cons]

theorem lineDefAt_shift (ls : List (List Nat)) (j m : Nat) (rawj : List Nat)
    (hj : ls[j]? = some rawj) :
    lineDefAt ls (j + 1 + m) =
      match (ls.drop (j + 1))[m]? with
      | some raw =>
        lineDef (scanLines (scanLine (scanPfx ls j) rawj) ((ls.drop (j + 1)).take m)).cur
          (scanLines (scanLine (scanPfx ls j) rawj) ((ls.drop (j + 1)).take m)).idx raw
      | none => none := by
  have hlt : j < ls.length := by
    by_contra hge
    rw [List.getElem?_eq_none (by omega)] at hj
    exact Option.noConfusion hj
  have hidx : ls[j + 1 + m]? = (ls.drop (j + 1))[m]? := by
    rw [List.getElem?_drop]
  have htake : ls.take (j + 1 + m) = (ls.take j ++ [rawj]) ++ (ls.drop (j + 1)).take m := by
    rw [List.take_add _ _ _, List.take_succ]
    congr 2
    rw [hj]
    rfl
  unfold lineDefAt
  rw [hidx]
  cases (ls.drop (j + 1))[m]? with
  | none => rfl
  | some raw =>
    unfold scanPfx
    rw [htake, scanLines_append]
    rw [show scanLines initState (ls.take j ++ [rawj]) =
      scanLine (scanLines initState (ls.take j)) rawj from scanLines_append _ _ _]

theorem lookupRef_loadDoc_last (t : List Nat) (j : Nat) (rawj : List Nat)
    (sk : RefKey) (e : IniValueRef)
    (hj : (pySplitlinesKeepends t)[j]? = some rawj)
    (hdef : lineDefAt (pySplitlinesKeepends t) j = some (sk, e))
    (hlast : ∀ m e', j < m → lineDefAt (pySplitlinesKeepends t) m ≠ some (sk, e')) :
    lookupRef (loadDoc t).refs sk = some e := by
  have hdef' : lineDef (scanPfx (pySplitlinesKeepends t) j).cur
      (scanPfx (pySplitlinesKeepends t) j).idx rawj = some (sk, e) := by
    unfold lineDefAt at hdef
    rw [hj] at hdef
    exact hdef
  have hrefs : (loadDoc t).refs = (scanLines initState (pySplitlinesKeepends t)).refs := rfl
  rw [hrefs, scanLines_decomp _ j rawj hj initState]
  rw [lookup_scan_of_no_def _ _ _ ?_]
  · rw [scanLine_refs]
    rw [show scanLines initState ((pySplitlinesKeepends t).take j) =
      scanPfx (pySplitlinesKeepends t) j from rfl, hdef']
    exact lookupRef_upsert_self _ _ _
  · intro m raw hm e'
    have hshift := lineDefAt_shift (pySplitlinesKeepends t) j m rawj hj
    rw [hm] at hshift
    have hthis := hlast (j + 1 + m) e' (by omega)
    rw [hshift] at hthis
    exact hthis

/-! ### Structure of a successful key/value match -/

theorem closeKey_decomp (rest t : List Nat) (h : closeKey rest = some t) :
    ∃ c, rest = c ++ 61 :: t := by
  unfold closeKey at h
  cases hdw : rest.dropWhile pyIsSpace with
  | nil => rw [hdw] at h; exact Option.noConfusion h
  | cons c0 tl =>
    rw [hdw] at h
    have h' : (if c0 = 61 then some tl else none) = some t := h
    by_cases hc : c0 = 61
    · rw [if_pos hc] at h'
      obtain rfl := Option.some_inj.mp h'
      refine ⟨rest.takeWhile pyIsSpace, ?_⟩
      conv_lhs => rw [← List.takeWhile_append_dropWhile (p := pyIsSpace) (l := rest)]
      rw [hdw, hc]
    · rw [if_neg hc] at h'
      exact Option.noConfusion h'

theorem findKey_decomp (l : List Nat) (acc k t : List Nat)
    (h : findKey acc l = some (k, t)) : ∃ c, l = c ++ t := by
  induction l generalizing acc with
  | nil => simp [findKey] at h
  | cons c0 rest ih =>
    unfold findKey at h
    by_cases hkc : isKeyChar c0 = true
    · rw [if_pos hkc] at h
      cases hck : closeKey rest with
      | some t' =>
        rw [hck] at h
        have ht : t' = t := congrArg Prod.snd (Option.some_inj.mp h)
        subst ht
        obtain ⟨c1, hc1⟩ := closeKey_decomp rest t' hck
        exact ⟨c0 :: (c1 ++ [61]), by simp [hc1]⟩
      | none =>
        rw [hck] at h
        obtain ⟨c, hc⟩ := ih (acc ++ [c0]) h
        exact ⟨c0 :: c, by rw [hc]; rfl⟩
    · rw [if_neg hkc] at h
      exact Option.noConfusion h

theorem kvAttempt_suffix (p : Nat) (l : List Nat) (kv : KVMatch)
    (h : kvAttempt p l = some kv) : ∃ a, l = a ++ kv.suffix := by
  unfold kvAttempt at h
  cases hfk : findKey [] (l.drop p) with
  | none => rw [hfk] at h; exact Option.noConfusion h
  | some pr =>
    obtain ⟨k0, tail⟩ := pr
    rw [hfk] at h
    have h' : (if (((tail.dropWhile pyIsSpace).reverse.dropWhile pyIsSpace).reverse).contains 10 = true
        then none
        else some (⟨l.take p, k0,
          ((tail.dropWhile pyIsSpace).reverse.dropWhile pyIsSpace).reverse,
          ((tail.dropWhile pyIsSpace).reverse.takeWhile pyIsSpace).reverse⟩ : KVMatch)) =
        some kv := h
    by_cases hv : (((tail.dropWhile pyIsSpace).reverse.dropWhile pyIsSpace).reverse).contains 10 = true
    · rw [if_pos hv] at h'
      exact Option.noConfusion h'
    · rw [if_neg hv] at h'
      obtain rfl := Option.some_inj.mp h'
      obtain ⟨c, hc⟩ := findKey_decomp (l.drop p) [] k0 tail hfk
      refine ⟨l.take p ++ c ++ tail.takeWhile pyIsSpace ++
        ((tail.dropWhile pyIsSpace).reverse.dropWhile pyIsSpace).reverse, ?_⟩
      have htail : tail.takeWhile pyIsSpace ++
          (((tail.dropWhile pyIsSpace).reverse.dropWhile pyIsSpace).reverse ++
            ((tail.dropWhile pyIsSpace).reverse.takeWhile pyIsSpace).reverse) = tail := by
        rw [← List.reverse_append, List.takeWhile_append_dropWhile _ _,
          List.reverse_reverse, List.takeWhile_append_dropWhile _ _]
      conv_lhs => rw [← List.take_append_drop p l, hc, ← htail]
      simp

theorem kvSearch_suffix (l : List Nat) (n : Nat) (kv : KVMatch)
    (h : kvSearch l n = some kv) : ∃ a, l = a ++ kv.suffix := by
  induction n with
  | zero => exact kvAttempt_suffix 0 l kv h
  | succ m ih =>
    unfold kvSearch at h
    cases hat : kvAttempt (m + 1) l with
    | some r =>
      rw [hat] at h
      obtain rfl := Option.some_inj.mp h
      exact kvAttempt_suffix (m + 1) l r hat
    | none =>
      rw [hat] at h
      exact ih h

theorem matchKeyVal_suffix (l : List Nat) (kv : KVMatch)
    (h : matchKeyVal l = some kv) : ∃ a, l = a ++ kv.suffix :=
  kvSearch_suffix l _ kv h

/-! ### Shape of registry entries produced by load -/

theorem lineDef_inv (cur : List Nat) (idx : Nat) (raw : List Nat)
    (sk : RefKey) (e : IniValueRef) (h : lineDef cur idx raw = some (sk, e)) :
    matchSection raw = none ∧ ∃ kv, matchKeyVal raw = some kv ∧
      e = ⟨normSection cur, normKey kv.key, rstripCRLF kv.val, idx, kv.pfx, kv.suffix⟩ ∧
      sk = (normSection cur, normKey kv.key) := by
  unfold lineDef at h
  cases hms : matchSection raw with
  | some inner => rw [hms] at h; exact Option.noConfusion h
  | none =>
    rw [hms] at h
    cases hkv : matchKeyVal raw with
    | none => rw [hkv] at h; exact Option.noConfusion h
    | some kv =>
      rw [hkv] at h
      have := Option.some_inj.mp h
      refine ⟨rfl, kv, rfl, ?_, ?_⟩
      · exact (congrArg Prod.snd this).symm
      · exact (congrArg Prod.fst this).symm

theorem loadDoc_mem_shape (t : List Nat) (p : RefKey × IniValueRef)
    (h : p ∈ (loadDoc t).refs) :
    ∃ raw kv, (pySplitlinesKeepends t)[p.2.line_index]? = some raw ∧
      matchSection raw = none ∧ matchKeyVal raw = some kv ∧
      p.2.pfx = kv.pfx ∧ p.2.key = normKey kv.key ∧ p.2.suffix = kv.suffix ∧
      p.2.value = rstripCRLF kv.val := by
  have hmem : p ∈ (scanLines initState (pySplitlinesKeepends t)).refs := h
  rcases mem_scan_refs _ initState p hmem with h0 | ⟨j, raw, hj, hd⟩
  · simp [initState] at h0
  · obtain ⟨sk, e⟩ := p
    obtain ⟨hms, kv, hkv, he, hsk⟩ := lineDef_inv _ _ _ _ _ hd
    have hlt : j < (pySplitlinesKeepends t).length := by
      by_contra hge
      rw [List.getElem?_eq_none (by omega)] at hj
      exact Option.noConfusion hj
    have hidx : e.line_index = j := by
      rw [he]
      show (scanLines initState ((pySplitlinesKeepends t).take j)).idx = j
      rw [scanLines_idx]
      simp [initState, List.length_take]
      omega
    refine ⟨raw, kv, ?_, hms, hkv, ?_, ?_, ?_, ?_⟩
    · rw [hidx]; exact hj
    · rw [he]
    · rw [he]
    · rw [he]
    · rw [he]

/-! ### Round-trip support lemmas -/

theorem pySplitAux_flatten (acc : List Nat) (l : List Nat) :
    (pySplitAux acc l).flatten = acc.reverse ++ l := by
  induction acc, l using pySplitAux.induct with
  | case1 => simp [pySplitAux]
  | case2 acc hne => simp [pySplitAux, hne]
  | case3 acc rest ih =>
    rw [pySplitAux.eq_2]
    simp only [List.flatten_cons, ih]
    simp
  | case4 acc c rest hpat hbr ih =>
    rw [pySplitAux.eq_3 _ _ _ hpat, if_pos hbr]
    simp only [List.flatten_cons, ih]
    simp
  | case5 acc c rest hpat hbr ih =>
    rw [pySplitAux.eq_3 _ _ _ hpat, if_neg hbr, ih]
    simp

theorem pySplitlinesKeepends_flatten (t : List Nat) :
    (pySplitlinesKeepends t).flatten = t :=
  pySplitAux_flatten [] t

theorem pyUnivNlGo_no_cr (c : Nat) (rest : List Nat) (hc : c ≠ 13)
    (hr : 13 ∉ rest) : pyUnivNlGo c rest = c :: rest := by
  induction rest generalizing c with
  | nil =>
    unfold pyUnivNlGo
    exact if_neg hc
  | cons c2 rest2 ih =>
    have hc2 : c2 ≠ 13 := fun h => hr (h ▸ List.mem_cons_self c2 rest2)
    have hr2 : 13 ∉ rest2 := fun h => hr (List.mem_cons_of_mem c2 h)
    have hstep : pyUnivNlGo c (c2 :: rest2) = c :: pyUnivNlGo c2 rest2 := by
      cases rest2 with
      | nil => rw [pyUnivNlGo.eq_2, if_neg hc]
      | cons c3 rest3 => rw [pyUnivNlGo.eq_3, if_neg hc]
    rw [hstep, ih c2 hc2 hr2]

theorem pyUnivNl_no_cr (l : List Nat) (h : 13 ∉ l) : pyUnivNl l = l := by
  cases l with
  | nil => rfl
  | cons c rest =>
    show pyUnivNlGo c rest = c :: rest
    exact pyUnivNlGo_no_cr c rest
      (fun hc => h (hc ▸ List.mem_cons_self c rest))
      (fun hm => h (List.mem_cons_of_mem c hm))

theorem pyWriteBytes_lf (t : List Nat) : pyWriteBytes [10] t = utf8Encode t := by
  unfold pyWriteBytes
  congr 1
  induction t with
  | nil => rfl
  | cons c rest ih =>
    simp only [List.map_cons, List.flatten_cons, ih]
    by_cases hc : c = 10
    · rw [if_pos hc, hc]
      rfl
    · rw [if_neg hc]
      rfl

theorem utf8EncodeChar_length_pos (c : Nat) : 0 < (utf8EncodeChar c).length := by
  unfold utf8EncodeChar
  split_ifs <;> simp

theorem utf8DecodeStep_enc1 (c : Nat) (h : c < 0x80) (rest : List Nat) :
    utf8DecodeStep c rest = (c, 0) := by
  unfold utf8DecodeStep
  rw [if_pos h]

theorem utf8DecodeStep_enc2 (c : Nat) (h1 : 0x80 ≤ c) (h2 : c < 0x800) (rest : List Nat) :
    utf8DecodeStep (0xC0 + c / 0x40) ((0x80 + c % 0x40) :: rest) = (c, 1) := by
  have ha : ¬(0xC0 + c / 0x40 < 0x80) := by omega
  have hb : ¬(0xC0 + c / 0x40 < 0xC2) := by omega
  have hc : 0xC0 + c / 0x40 < 0xE0 := by omega
  unfold utf8DecodeStep
  rw [if_neg ha, if_neg hb, if_pos hc]
  show (if 0x80 ≤ 0x80 + c % 0x40 ∧ 0x80 + c % 0x40 < 0xC0 then
      ((0xC0 + c / 0x40 - 0xC0) * 0x40 + (0x80 + c % 0x40 - 0x80), 1)
    else ((0xFFFD : Nat), (0 : Nat))) = (c, 1)
  rw [if_pos (by omega : 0x80 ≤ 0x80 + c % 0x40 ∧ 0x80 + c % 0x40 < 0xC0)]
  simp only [Prod.mk.injEq]
  exact ⟨by omega, trivial⟩

theorem utf8DecodeStep_enc3 (c : Nat) (h1 : 0x800 ≤ c) (h2 : c < 0x10000)
    (h3 : ¬(0xD800 ≤ c ∧ c < 0xE000)) (rest : List Nat) :
    utf8DecodeStep (0xE0 + c / 0x1000)
      ((0x80 + c / 0x40 % 0x40) :: (0x80 + c % 0x40) :: rest) = (c, 2) := by
  have ha : ¬(0xE0 + c / 0x1000 < 0x80) := by omega
  have hb : ¬(0xE0 + c / 0x1000 < 0xC2) := by omega
  have hc : ¬(0xE0 + c / 0x1000 < 0xE0) := by omega
  have hd : 0xE0 + c / 0x1000 < 0xF0 := by omega
  unfold utf8DecodeStep
  rw [if_neg ha, if_neg hb, if_neg hc, if_pos hd]
  show (if (if 0xE0 + c / 0x1000 = 0xE0 then 0xA0 else 0x80) ≤ 0x80 + c / 0x40 % 0x40 ∧
        0x80 + c / 0x40 % 0x40 < (if 0xE0 + c / 0x1000 = 0xED then 0xA0 else 0xC0) then
      (if 0x80 ≤ 0x80 + c % 0x40 ∧ 0x80 + c % 0x40 < 0xC0 then
        ((0xE0 + c / 0x1000 - 0xE0) * 0x1000 + (0x80 + c / 0x40 % 0x40 - 0x80) * 0x40 +
          (0x80 + c % 0x40 - 0x80), 2)
      else ((0xFFFD : Nat), (1 : Nat)))
    else ((0xFFFD : Nat), (0 : Nat))) = (c, 2)
  have hcond : (if 0xE0 + c / 0x1000 = 0xE0 then 0xA0 else 0x80) ≤ 0x80 + c / 0x40 % 0x40 ∧
      0x80 + c / 0x40 % 0x40 < (if 0xE0 + c / 0x1000 = 0xED then 0xA0 else 0xC0) := by
    constructor
    · by_cases he : 0xE0 + c / 0x1000 = 0xE0
      · rw [if_pos he]; omega
      · rw [if_neg he]; omega
    · by_cases he : 0xE0 + c / 0x1000 = 0xED
      · rw [if_pos he]; omega
      · rw [if_neg he]; omega
  rw [if_pos hcond, if_pos (by omega : 0x80 ≤ 0x80 + c % 0x40 ∧ 0x80 + c % 0x40 < 0xC0)]
  simp only [Prod.mk.injEq]
  exact ⟨by omega, trivial⟩

theorem utf8DecodeStep_enc4 (c : Nat) (h1 : 0x10000 ≤ c) (h2 : c < 0x110000)
    (rest : List Nat) :
    utf8DecodeStep (0xF0 + c / 0x40000)
      ((0x80 + c / 0x1000 % 0x40) :: (0x80 + c / 0x40 % 0x40) ::
        (0x80 + c % 0x40) :: rest) = (c, 3) := by
  have ha : ¬(0xF0 + c / 0x40000 < 0x80) := by omega
  have hb : ¬(0xF0 + c / 0x40000 < 0xC2) := by omega
  have hc : ¬(0xF0 + c / 0x40000 < 0xE0) := by omega
  have hd : ¬(0xF0 + c / 0x40000 < 0xF0) := by omega
  have he : 0xF0 + c / 0x40000 < 0xF5 := by omega
  unfold utf8DecodeStep
  rw [if_neg ha, if_neg hb, if_neg hc, if_neg hd, if_pos he]
  show (if (if 0xF0 + c / 0x40000 = 0xF0 then 0x90 else 0x80) ≤ 0x80 + c / 0x1000 % 0x40 ∧
        0x80 + c / 0x1000 % 0x40 < (if 0xF0 + c / 0x40000 = 0xF4 then 0x90 else 0xC0) then
      (if 0x80 ≤ 0x80 + c / 0x40 % 0x40 ∧ 0x80 + c / 0x40 % 0x40 < 0xC0 then
        (if 0x80 ≤ 0x80 + c % 0x40 ∧ 0x80 + c % 0x40 < 0xC0 then
          ((0xF0 + c / 0x40000 - 0xF0) * 0x40000 + (0x80 + c / 0x1000 % 0x40 - 0x80) * 0x1000 +
            (0x80 + c / 0x40 % 0x40 - 0x80) * 0x40 + (0x80 + c % 0x40 - 0x80), 3)
        else ((0xFFFD : Nat), (2 : Nat)))
      else ((0xFFFD : Nat), (1 : Nat)))
    else ((0xFFFD : Nat), (0 : Nat))) = (c, 3)
  have hcond : (if 0xF0 + c / 0x40000 = 0xF0 then 0x90 else 0x80) ≤ 0x80 + c / 0x1000 % 0x40 ∧
      0x80 + c / 0x1000 % 0x40 < (if 0xF0 + c / 0x40000 = 0xF4 then 0x90 else 0xC0) := by
    constructor
    · by_cases hf : 0xF0 + c / 0x40000 = 0xF0
      · rw [if_pos hf]; omega
      · rw [if_neg hf]; omega
    · by_cases hf : 0xF0 + c / 0x40000 = 0xF4
      · rw [if_pos hf]; omega
      · rw [if_neg hf]; omega
  rw [if_pos hcond, if_pos (by omega : 0x80 ≤ 0x80 + c / 0x40 % 0x40 ∧ 0x80 + c / 0x40 % 0x40 < 0xC0),
    if_pos (by omega : 0x80 ≤ 0x80 + c % 0x40 ∧ 0x80 + c % 0x40 < 0xC0)]
  simp only [Prod.mk.injEq]
  exact ⟨by omega, trivial⟩

theorem utf8Encode_cons (c : Nat) (s : List Nat) :
    utf8Encode (c :: s) = utf8EncodeChar c ++ utf8Encode s := by
  simp [utf8Encode]

theorem utf8DecodeLoop_encode (s : List Nat) (hs : ∀ c ∈ s, ScalarCP c)
    (fuel : Nat) (hf : (utf8Encode s).length ≤ fuel) :
    utf8DecodeLoop fuel (utf8Encode s) = s := by
  induction s generalizing fuel with
  | nil =>
    show utf8DecodeLoop fuel [] = []
    cases fuel <;> rfl
  | cons c rest ih =>
    obtain ⟨hlt, hnsur⟩ := hs c (List.mem_cons_self c rest)
    have hrest : ∀ x ∈ rest, ScalarCP x := fun x hx => hs x (List.mem_cons_of_mem c hx)
    rw [utf8Encode_cons] at hf ⊢
    rw [List.length_append] at hf
    have hcpos := utf8EncodeChar_length_pos c
    cases fuel with
    | zero => omega
    | succ f =>
      by_cases h1 : c < 0x80
      · have henc : utf8EncodeChar c = [c] := by
          unfold utf8EncodeChar
          rw [if_pos h1]
        rw [henc] at hf ⊢
        show (utf8DecodeStep c (utf8Encode rest)).1 ::
          utf8DecodeLoop f ((utf8Encode rest).drop (utf8DecodeStep c (utf8Encode rest)).2) =
          c :: rest
        rw [utf8DecodeStep_enc1 c h1]
        simp only [List.drop_zero]
        rw [ih hrest f (by simp at hf; omega)]
      · by_cases h2 : c < 0x800
        · have henc : utf8EncodeChar c = [0xC0 + c / 0x40, 0x80 + c % 0x40] := by
            unfold utf8EncodeChar
            rw [if_neg h1, if_pos h2]
          rw [henc] at hf ⊢
          show (utf8DecodeStep (0xC0 + c / 0x40) ((0x80 + c % 0x40) :: utf8Encode rest)).1 ::
            utf8DecodeLoop f (((0x80 + c % 0x40) :: utf8Encode rest).drop
              (utf8DecodeStep (0xC0 + c / 0x40) ((0x80 + c % 0x40) :: utf8Encode rest)).2) =
            c :: rest
          rw [utf8DecodeStep_enc2 c (by omega) h2]
          show c :: utf8DecodeLoop f (utf8Encode rest) = c :: rest
          rw [ih hrest f (by simp at hf; omega)]
        · by_cases h3 : c < 0x10000
          · have henc : utf8EncodeChar c =
                [0xE0 + c / 0x1000, 0x80 + c / 0x40 % 0x40, 0x80 + c % 0x40] := by
              unfold utf8EncodeChar
              rw [if_neg h1, if_neg h2, if_neg hnsur, if_pos h3]
            rw [henc] at hf ⊢
            show (utf8DecodeStep (0xE0 + c / 0x1000)
                ((0x80 + c / 0x40 % 0x40) :: (0x80 + c % 0x40) :: utf8Encode rest)).1 ::
              utf8DecodeLoop f (((0x80 + c / 0x40 % 0x40) :: (0x80 + c % 0x40) ::
                utf8Encode rest).drop
                (utf8DecodeStep (0xE0 + c / 0x1000)
                  ((0x80 + c / 0x40 % 0x40) :: (0x80 + c % 0x40) :: utf8Encode rest)).2) =
              c :: rest
            rw [utf8DecodeStep_enc3 c (by omega) h3 hnsur]
            show c :: utf8DecodeLoop f (utf8Encode rest) = c :: rest
            rw [ih hrest f (by simp at hf; omega)]
          · have henc : utf8EncodeChar c =
                [0xF0 + c / 0x40000, 0x80 + c / 0x1000 % 0x40, 0x80 + c / 0x40 % 0x40,
                  0x80 + c % 0x40] := by
              unfold utf8EncodeChar
              rw [if_neg h1, if_neg h2, if_neg hnsur, if_neg h3, if_pos hlt]
            rw [henc] at hf ⊢
            show (utf8DecodeStep (0xF0 + c / 0x40000)
                ((0x80 + c / 0x1000 % 0x40) :: (0x80 + c / 0x40 % 0x40) ::
                  (0x80 + c % 0x40) :: utf8Encode rest)).1 ::
              utf8DecodeLoop f (((0x80 + c / 0x1000 % 0x40) :: (0x80 + c / 0x40 % 0x40) ::
                (0x80 + c % 0x40) :: utf8Encode rest).drop
                (utf8DecodeStep (0xF0 + c / 0x40000)
                  ((0x80 + c / 0x1000 % 0x40) :: (0x80 + c / 0x40 % 0x40) ::
                    (0x80 + c % 0x40) :: utf8Encode rest)).2) =
              c :: rest
            rw [utf8DecodeStep_enc4 c (by omega) hlt]
            show c :: utf8DecodeLoop f (utf8Encode rest) = c :: rest
            rw [ih hrest f (by simp at hf; omega)]

theorem utf8DecodeReplace_encode (s : List Nat) (hs : ∀ c ∈ s, ScalarCP c) :
    utf8DecodeReplace (utf8Encode s) = s :=
  utf8DecodeLoop_encode s hs _ (Nat.le_refl _)

/-! ### Uniqueness of registry keys -/

theorem lookupRef_none_not_mem_keys (l : Refs) (k : RefKey)
    (h : lookupRef l k = none) : k ∉ l.map Prod.fst := by
  induction l with
  | nil => simp
  | cons hd tl ih =>
    obtain ⟨k', r'⟩ := hd
    rw [lookupRef_cons] at h
    by_cases hk : k' = k
    · rw [if_pos hk] at h
      exact Option.noConfusion h
    · rw [if_neg hk] at h
      simp only [List.map_cons, List.mem_cons]
      rintro (rfl | hmem)
      · exact hk rfl
      · exact ih h hmem

theorem keys_upsert (l : Refs) (k : RefKey) (r : IniValueRef) :
    (upsert l k r).map Prod.fst =
      if (lookupRef l k).isSome then l.map Prod.fst else l.map Prod.fst ++ [k] := by
  unfold upsert
  by_cases hs : (lookupRef l k).isSome
  · rw [if_pos hs, if_pos hs, List.map_map]
    apply List.map_congr_left
    intro p _
    obtain ⟨kp, rp⟩ := p
    by_cases hk : kp = k
    · simp [replaceEntry, hk]
    · simp [replaceEntry, hk]
  · rw [if_neg hs, if_neg hs, List.map_append]
    rfl

theorem nodup_keys_upsert (l : Refs) (k : RefKey) (r : IniValueRef)
    (h : List.Nodup (l.map Prod.fst)) :
    List.Nodup ((upsert l k r).map Prod.fst) := by
  rw [keys_upsert]
  by_cases hs : (lookupRef l k).isSome
  · rw [if_pos hs]
    exact h
  · rw [if_neg hs]
    have hnone : lookupRef l k = none := by
      revert hs; cases lookupRef l k <;> simp
    have hnm := lookupRef_none_not_mem_keys l k hnone
    simp [List.nodup_append, h, hnm]

theorem nodup_keys_scan (raws : List (List Nat)) (st : ScanState)
    (h : List.Nodup (st.refs.map Prod.fst)) :
    List.Nodup ((scanLines st raws).refs.map Prod.fst) := by
  induction raws generalizing st with
  | nil => exact h
  | cons raw0 rest ih =>
    rw [scanLines_cons]
    apply ih
    rw [scanLine_refs]
    cases lineDef st.cur st.idx raw0 with
    | none => exact h
    | some p => exact nodup_keys_upsert _ _ _ h

theorem loadDoc_keys_nodup (t : List Nat) :
    List.Nodup ((loadDoc t).refs.map Prod.fst) :=
  nodup_keys_scan _ initState (by simp [initState])

/-! ### Classifier characterization -/

theorem classify_bool_iff (v : List Nat) :
    classify v = ValueClass.bool ↔
      lowerAscii (pyStrip v) ∈ boolTrueTexts ++ boolFalseTexts := by
  unfold classify isBoolText
  by_cases h1 : lowerAscii (pyStrip v) ∈ boolTrueTexts
  · simp [h1]
  · by_cases h2 : lowerAscii (pyStrip v) ∈ boolFalseTexts
    · simp [h1, h2]
    · simp only [if_neg h1, if_neg h2, List.mem_append]
      constructor
      · intro hcl
        exfalso
        split_ifs at hcl
      · rintro (h | h)
        · exact absurd h h1
        · exact absurd h h2

/-! ### Claim theorems -/

/-- C10: for a document in any state, if `(section, key)` already has an
Entry then immediately after `set(section, key, v)` the call
`get(section, key)` returns exactly `v`. -/
theorem c10_get_after_set (doc : IniDocument) (disk sec key v : List Nat)
    (ref : IniValueRef)
    (h : lookupRef doc.refs (normSection sec, normKey key) = some ref) :
    (doc.set disk sec key v).get sec key = some v := by
  unfold IniDocument.set
  simp only [h]
  unfold IniDocument.get
  rw [lookupRef_upsert_self]
  rfl

/-- Witness for C10 at a concrete document. -/
theorem c10_witness :
    ((loadDoc (pstr "[A]\nfoo=1\n")).set [] (pstr "A") (pstr "foo") (pstr "9")).get
      (pstr "A") (pstr "foo") = some (pstr "9") :=
  c10_get_after_set _ _ _ _ _ ⟨pstr "A", pstr "foo", pstr "1", 1, [], [10]⟩ (by decide)

/-- C2 (code bug): on the document loaded from `"[A]\nfoo=1\n"`,
`set("A","baz","x")` does not insert `baz=x` — `_reindex_refs_from`
re-reads the file from disk, so the lines are unchanged and the new
binding is absent. -/
theorem c2_insert_discarded :
    ((loadDoc (pstr "[A]\nfoo=1\n")).set (pstr "[A]\nfoo=1\n")
        (pstr "A") (pstr "baz") (pstr "x")).lines = [pstr "[A]\n", pstr "foo=1\n"] ∧
    ((loadDoc (pstr "[A]\nfoo=1\n")).set (pstr "[A]\nfoo=1\n")
        (pstr "A") (pstr "baz") (pstr "x")).get (pstr "A") (pstr "baz") = none := by
  exact ⟨rfl, rfl⟩

/-- C3 (code bug): on the document loaded from `"[A]\nfoo=1\n"`, setting
the existing key `foo` to `"9"` rewrites its line to `"foo=9\n\n"` —
the `suffix` group captured the terminator and `set` appends another
newline — instead of `"foo=9\n"`; the stored suffix is shown. -/
theorem c3_set_line_rewrite :
    ((loadDoc (pstr "[A]\nfoo=1\n")).set [] (pstr "A") (pstr "foo") (pstr "9")).lines
        = [pstr "[A]\n", pstr "foo=9\n\n"] ∧
    (lookupRef (loadDoc (pstr "[A]\nfoo=1\n")).refs (pstr "A", pstr "foo")).map
        IniValueRef.suffix = some [10] ∧
    pstr "foo=9\n\n" ≠ pstr "foo=9\n" := by
  exact ⟨rfl, rfl, by decide⟩

/-- C6 (code bug): a file with a CRLF-terminated line is normalized on
load (text mode translates `\r\n` to `\n`), and saving writes the
platform separator, so the per-line terminator style is not
preserved on any platform. -/
theorem c6_terminators_normalized :
    (loadFile (pstr "a=1\r\nb=2\n")).lines = [pstr "a=1\n", pstr "b=2\n"] ∧
    (loadFile (pstr "a=1\r\nb=2\n")).save (pstr "\n") = pstr "a=1\nb=2\n" ∧
    (loadFile (pstr "a=1\r\nb=2\n")).save (pstr "\r\n") = pstr "a=1\r\nb=2\r\n" ∧
    pstr "a=1\nb=2\n" ≠ pstr "a=1\r\nb=2\n" ∧
    pstr "a=1\r\nb=2\r\n" ≠ pstr "a=1\r\nb=2\n" := by
  exact ⟨rfl, rfl, rfl, by decide, by decide⟩

/-- C1 (counterexample): a file holding the single byte `0xFF` is not
reproduced by load-then-save under either possible platform separator
(the byte is decoded to U+FFFD and re-encoded as three bytes), and for
a CRLF file the concatenation of the stored lines differs from the
original contents. -/
theorem c1_counterexample :
    (loadFile [0xFF]).save (pstr "\n") ≠ [0xFF] ∧
    (loadFile [0xFF]).save (pstr "\r\n") ≠ [0xFF] ∧
    (loadFile (pstr "a=1\r\n")).lines.flatten ≠ pstr "a=1\r\n" := by
  exact ⟨by decide, by decide, by decide⟩

/-- C8: the control classifier recognizes booleans exactly on the
eight case-insensitive, whitespace-trimmed spellings, and applies the
priority boolean, colour, integer, float, free text: `"TRUE"`, `"1"`,
`"yes"`, `"on"` are boolean-true; `"2"` is not boolean (it is an
integer); `"1"`/`"0"` stay boolean although integer-parseable;
`0x`+6/8 hex digits is a colour although integer-parseable; `0x`+3
digits falls to integer; `"1.5"` is float; `"hello"` is free text. -/
theorem c8_classifier_priority :
    (∀ v : List Nat, classify v = ValueClass.bool ↔
        lowerAscii (pyStrip v) ∈ boolTrueTexts ++ boolFalseTexts) ∧
    isBoolText (pstr "TRUE") = some true ∧
    isBoolText (pstr "1") = some true ∧
    isBoolText (pstr "yes") = some true ∧
    isBoolText (pstr "on") = some true ∧
    isBoolText (pstr "2") = none ∧
    classify (pstr "2") = ValueClass.int ∧
    classify (pstr "1") = ValueClass.bool ∧
    classify (pstr "0") = ValueClass.bool ∧
    classify (pstr "0x112233") = ValueClass.color ∧
    classify (pstr "0xA1B2C3D4") = ValueClass.color ∧
    (pyParseInt (pstr "0x112233")).isSome = true ∧
    classify (pstr "0x123") = ValueClass.int ∧
    classify (pstr "1.5") = ValueClass.float ∧
    classify (pstr "hello") = ValueClass.text :=
  ⟨classify_bool_iff, by decide, by decide, by decide, by decide, by decide,
    by decide, by decide, by decide, by decide, by decide, by decide,
    by decide, by decide, by decide⟩

/-- C9 (counterexample): an untouched checkbox built from the stored
value `"TRUE"` writes back `"true"`, and an untouched integer spin box
built from `"0x10"` writes back `"16"`, so writing the form back does
not leave untouched textual values unchanged. -/
theorem c9_counterexample :
    writeBackUntouched (pstr "TRUE") = some (pstr "true") ∧
    pstr "true" ≠ pstr "TRUE" ∧
    writeBackUntouched (pstr "0x10") = some (pstr "16") ∧
    pstr "16" ≠ pstr "0x10" := by
  exact ⟨by decide, by decide, by decide, by decide⟩

/-- C9 (amended): the pure classification indeed stores nothing, but
writing the form back re-normalizes every recognized control value;
the textual value is preserved exactly for free-text-classified values
and for values already in canonical widget form (lowercase booleans,
plain decimal integers in range, stripped colour text), while values
such as `"TRUE"` or `"0x10"` are rewritten to `"true"` and `"16"`. -/
theorem c9_untouched_writeback (v : List Nat) (h : classify v = ValueClass.text) :
    writeBackUntouched v = some v := by
  unfold classify at h
  unfold writeBackUntouched
  cases hb : isBoolText v with
  | some b => simp [hb] at h
  | none =>
    simp only [hb] at h
    by_cases hc : (matchHexColor v).isSome
    · simp [hc] at h
    · rw [if_neg hc] at h ⊢
      by_cases hi : ((pyParseInt v).isSome &&
          ((lowerAscii (pyStrip v)).take 2 == [48, 120] || intRegexFull v)) = true
      · simp [hi] at h
      · rw [if_neg hi] at h ⊢
        unfold floatOrText
        by_cases hf : (floatAccepts (pyStrip v) && floatRegexFull v) = true
        · simp [hf] at h
        · rw [if_neg hf]

/-- Witness for C9 at a concrete free-text value. -/
theorem c9_witness : writeBackUntouched (pstr "hello世界") = some (pstr "hello世界") :=
  c9_untouched_writeback (pstr "hello世界") (by decide)

/-! ### Lines that match neither pattern -/

theorem matchSection_comment (rest : List Nat) : matchSection (59 :: rest) = none := by
  have hds : (59 :: rest).dropWhile pyIsSpace = 59 :: rest := by
    rw [List.dropWhile_cons, if_neg (by decide)]
  unfold matchSection
  rw [hds]
  exact if_neg (by decide)

theorem matchKeyVal_comment (rest : List Nat) : matchKeyVal (59 :: rest) = none := by
  have htw : (59 :: rest).takeWhile pyIsSpace = [] := by
    rw [List.takeWhile_cons, if_neg (by decide)]
  have hfk : findKey [] (59 :: rest) = none := by
    unfold findKey
    exact if_neg (by decide)
  unfold matchKeyVal
  rw [htw]
  show kvAttempt 0 (59 :: rest) = none
  unfold kvAttempt
  rw [List.drop_zero, hfk]

/-- C7: loading signals an error exactly on a missing file and never
fails on content: the loaded lines are exactly the split of the text,
any line matching neither pattern contributes no Entry (no Entry's
line index points at it), and a comment line starting with `;`
matches neither pattern. -/
theorem c7_load_total_and_permissive :
    loadFromDisk none = Except.error () ∧
    (∀ b : List Nat, loadFromDisk (some b) = Except.ok (loadFile b)) ∧
    (∀ t : List Nat, (loadDoc t).lines = pySplitlinesKeepends t) ∧
    (∀ t j raw, (pySplitlinesKeepends t)[j]? = some raw →
      matchSection raw = none → matchKeyVal raw = none →
      ∀ p ∈ (loadDoc t).refs, p.2.line_index ≠ j) ∧
    (∀ rest : List Nat, matchSection (59 :: rest) = none ∧
      matchKeyVal (59 :: rest) = none) := by
  refine ⟨rfl, fun b => rfl, fun t => rfl, ?_, fun rest =>
    ⟨matchSection_comment rest, matchKeyVal_comment rest⟩⟩
  intro t j raw hj hms hkv p hp hidx
  obtain ⟨raw', kv, hraw', _, hkv', _, _, _, _⟩ := loadDoc_mem_shape t p hp
  rw [hidx, hj] at hraw'
  obtain rfl := Option.some_inj.mp hraw'
  rw [hkv] at hkv'
  exact Option.noConfusion hkv'

/-- C1 (amended): for a file that is the UTF-8 encoding of a text
without carriage returns, reading it back decodes to exactly that
text, the concatenation of the stored lines equals it, and saving
with an LF platform separator reproduces the original bytes; in
general, for arbitrary bytes, the concatenation of the stored lines
equals the decoded, newline-normalized text of the file. -/
theorem c1_roundtrip_amended (s : List Nat) (hs : ∀ c ∈ s, ScalarCP c)
    (hcr : 13 ∉ s) :
    pyReadText (utf8Encode s) = s ∧
    (loadFile (utf8Encode s)).lines.flatten = s ∧
    (loadFile (utf8Encode s)).save (pstr "\n") = utf8Encode s ∧
    (∀ b : List Nat, (loadFile b).lines.flatten = pyReadText b) := by
  have hread : pyReadText (utf8Encode s) = s := by
    unfold pyReadText
    rw [utf8DecodeReplace_encode s hs, pyUnivNl_no_cr s hcr]
  have hflat : (loadFile (utf8Encode s)).lines.flatten = s := by
    show (pySplitlinesKeepends (pyReadText (utf8Encode s))).flatten = s
    rw [hread, pySplitlinesKeepends_flatten]
  refine ⟨hread, hflat, ?_, fun b => pySplitlinesKeepends_flatten (pyReadText b)⟩
  show pyWriteBytes (pstr "\n") (loadFile (utf8Encode s)).lines.flatten = utf8Encode s
  rw [hflat]
  rw [show pstr "\n" = [10] from rfl, pyWriteBytes_lf]

/-- Witness for C1 at a concrete ASCII INI text. -/
theorem c1_witness :
    (loadFile (utf8Encode (pstr "[A]\nk=v\n"))).save (pstr "\n")
      = utf8Encode (pstr "[A]\nk=v\n") :=
  (c1_roundtrip_amended (pstr "[A]\nk=v\n") (by decide) (by decide)).2.2.1

theorem option_some_or {α : Type} (a : α) (x : Option α) : (some a).or x = some a := rfl

theorem getLast?_cons_or (a : Nat) (l : List Nat) :
    (a :: l).getLast? = l.getLast?.or (some a) := by
  induction l generalizing a with
  | nil => rfl
  | cons b tl ih =>
    rw [List.getLast?_cons_cons, ih b, Option.or_assoc]
    rfl

theorem getLast?_line_build (pfx key v sfx : List Nat) :
    (pfx ++ key ++ [61] ++ v ++ sfx).getLast? =
      sfx.getLast?.or (v.getLast?.or (some 61)) := by
  simp [List.getLast?_append, getLast?_cons_or, Option.or_assoc, option_some_or]

/-- C5 (counterexample): on a file whose single line has no trailing
terminator, setting the existing key to a value ending in `\n` twice
produces a different document from setting it once (the second call
sees the line now ending in `\n` and appends another one). -/
theorem c5_counterexample :
    ((loadFile (pstr "foo=1")).set (pstr "foo=1") [] (pstr "foo") (pstr "x\n")).set
        (pstr "foo=1") [] (pstr "foo") (pstr "x\n")
      ≠ (loadFile (pstr "foo=1")).set (pstr "foo=1") [] (pstr "foo") (pstr "x\n") := by
  decide

/-- C5 (amended): for a document freshly loaded from the file's
current contents, `set(section, key, v)` is idempotent whenever `v`
does not end in a line feed — both on existing keys (the rewritten
line then ends exactly as the original did, so the second rewrite
reproduces it) and on new keys (both calls reduce to a reload from
disk plus the same section-order update). With `v` ending in `"\n"`
and an unterminated final line, a second call appends an extra
newline, as the counterexample shows. -/
theorem c5_set_idempotent (disk sec key v : List Nat)
    (hv : v.getLast? ≠ some 10) :
    ((loadFile disk).set disk sec key v).set disk sec key v
      = (loadFile disk).set disk sec key v := by
  cases hlk : lookupRef (loadFile disk).refs (normSection sec, normKey key) with
  | none =>
    have hset1 : (loadFile disk).set disk sec key v =
        ⟨(loadFile disk).lines, (loadFile disk).refs,
          if normSection sec ≠ [] ∧ normSection sec ∉ (loadFile disk).section_order
          then (loadFile disk).section_order ++ [normSection sec]
          else (loadFile disk).section_order⟩ := by
      unfold IniDocument.set
      simp only [hlk]
    rw [hset1]
    unfold IniDocument.set
    simp only [hlk]
  | some r =>
    have hmem := lookupRef_mem _ _ _ hlk
    obtain ⟨raw, kv, hraw, hms, hkv, hpfx, hkey, hsuf, hval⟩ :=
      loadDoc_mem_shape (pyReadText disk) _ hmem
    have hraw' : (loadFile disk).lines[r.line_index]? = some raw := hraw
    have hlt : r.line_index < (loadFile disk).lines.length := by
      by_contra hge
      rw [List.getElem?_eq_none (by omega)] at hraw'
      exact Option.noConfusion hraw'
    obtain ⟨a, hraweq⟩ : ∃ a, raw = a ++ r.suffix := by
      obtain ⟨a, ha⟩ := matchKeyVal_suffix raw kv hkv
      exact ⟨a, by rw [hsuf]; exact ha⟩
    have hgetD : (loadFile disk).lines.getD r.line_index [] = raw := by
      rw [List.getD_eq_getElem?_getD, hraw']
      rfl
    by_cases hreq : raw.getLast? = some 10
    · -- the original line ends in a line feed: both rewrites append one
      have hset1 : (loadFile disk).set disk sec key v =
          ⟨(loadFile disk).lines.set r.line_index
              (r.pfx ++ r.key ++ [61] ++ v ++ r.suffix ++ [10]),
            upsert (loadFile disk).refs (normSection sec, normKey key)
              { r with value := v },
            (loadFile disk).section_order⟩ := by
        unfold IniDocument.set
        simp only [hlk, hgetD, if_pos hreq]
      have hline1 : (r.pfx ++ r.key ++ [61] ++ v ++ r.suffix ++ [10]).getLast?
          = some 10 := by
        simp [List.getLast?_append, getLast?_cons_or, Option.or_assoc, option_some_or]
      have hlk2 : lookupRef (upsert (loadFile disk).refs
          (normSection sec, normKey key) { r with value := v })
          (normSection sec, normKey key) = some { r with value := v } :=
        lookupRef_upsert_self _ _ _
      have hgetD2 : (((loadFile disk).lines.set r.line_index
          (r.pfx ++ r.key ++ [61] ++ v ++ r.suffix ++ [10])).getD r.line_index [])
          = r.pfx ++ r.key ++ [61] ++ v ++ r.suffix ++ [10] := by
        rw [List.getD_eq_getElem?_getD, List.getElem?_set_self (by simpa using hlt)]
        rfl
      rw [hset1]
      unfold IniDocument.set
      simp only [hlk2, hgetD2, if_pos hline1]
      rw [List.set_set, upsert_upsert]
    · -- the line had no final line feed and v does not end in one
      have hset1 : (loadFile disk).set disk sec key v =
          ⟨(loadFile disk).lines.set r.line_index
              (r.pfx ++ r.key ++ [61] ++ v ++ r.suffix),
            upsert (loadFile disk).refs (normSection sec, normKey key)
              { r with value := v },
            (loadFile disk).section_order⟩ := by
        unfold IniDocument.set
        simp only [hlk, hgetD, if_neg hreq, List.append_nil]
      have hsufne : r.suffix.getLast? ≠ some 10 := by
        intro hcontra
        apply hreq
        rw [hraweq, List.getLast?_append, hcontra]
        rfl
      have hline1 : (r.pfx ++ r.key ++ [61] ++ v ++ r.suffix).getLast? ≠ some 10 := by
        rw [getLast?_line_build]
        cases hs : r.suffix.getLast? with
        | some x =>
          rw [hs] at hsufne
          simpa using hsufne
        | none =>
          cases hvl : v.getLast? with
          | some y =>
            rw [hvl] at hv
            simpa using hv
          | none => simp
      have hlk2 : lookupRef (upsert (loadFile disk).refs
          (normSection sec, normKey key) { r with value := v })
          (normSection sec, normKey key) = some { r with value := v } :=
        lookupRef_upsert_self _ _ _
      have hgetD2 : (((loadFile disk).lines.set r.line_index
          (r.pfx ++ r.key ++ [61] ++ v ++ r.suffix)).getD r.line_index [])
          = r.pfx ++ r.key ++ [61] ++ v ++ r.suffix := by
        rw [List.getD_eq_getElem?_getD, List.getElem?_set_self (by simpa using hlt)]
        rfl
      rw [hset1]
      unfold IniDocument.set
      simp only [hlk2, hgetD2, if_neg hline1, List.append_nil]
      rw [List.set_set, upsert_upsert]

/-- Witness for C5 at a concrete document and value. -/
theorem c5_witness :
    (((loadFile (pstr "[A]\nfoo=1\n")).set (pstr "[A]\nfoo=1\n") (pstr "A")
        (pstr "foo") (pstr "9")).set (pstr "[A]\nfoo=1\n") (pstr "A") (pstr "foo")
        (pstr "9"))
      = (loadFile (pstr "[A]\nfoo=1\n")).set (pstr "[A]\nfoo=1\n") (pstr "A")
          (pstr "foo") (pstr "9") :=
  c5_set_idempotent (pstr "[A]\nfoo=1\n") (pstr "A") (pstr "foo") (pstr "9") (by decide)

theorem lineDefAt_none_of_ge (ls : List (List Nat)) (j : Nat)
    (h : ls.length ≤ j) : lineDefAt ls j = none := by
  unfold lineDefAt
  rw [List.getElem?_eq_none h]

/-- C4: in a loaded document where lines `i < j` both define the same
`(section, key)` and `j` is the last line defining it, `get` returns
line `j`'s value, `set` rewrites only line `j` (line `i` is untouched
byte for byte), and the registry keys are unique (at most one live
Entry per `(section, key)`). -/
theorem c4_last_duplicate_wins (t s k : List Nat) (i j : Nat)
    (ri rj : IniValueRef) (disk w : List Nat)
    (_hi : lineDefAt (pySplitlinesKeepends t) i = some ((s, k), ri))
    (hj : lineDefAt (pySplitlinesKeepends t) j = some ((s, k), rj))
    (hij : i < j)
    (hlast : ∀ m e', j < m → lineDefAt (pySplitlinesKeepends t) m ≠ some ((s, k), e')) :
    (loadDoc t).get s k = some rj.value ∧
    (∃ c, ((loadDoc t).set disk s k w).lines = (loadDoc t).lines.set j c) ∧
    ((loadDoc t).set disk s k w).lines[i]? = (loadDoc t).lines[i]? ∧
    List.Nodup ((loadDoc t).refs.map Prod.fst) := by
  obtain ⟨rawj, hrawj⟩ : ∃ rawj, (pySplitlinesKeepends t)[j]? = some rawj := by
    unfold lineDefAt at hj
    cases hlj : (pySplitlinesKeepends t)[j]? with
    | none => rw [hlj] at hj; exact Option.noConfusion hj
    | some raw => exact ⟨raw, rfl⟩
  have hdefj : lineDef (scanPfx (pySplitlinesKeepends t) j).cur
      (scanPfx (pySplitlinesKeepends t) j).idx rawj = some ((s, k), rj) := by
    unfold lineDefAt at hj
    rw [hrawj] at hj
    exact hj
  have hlookup : lookupRef (loadDoc t).refs (s, k) = some rj :=
    lookupRef_loadDoc_last t j rawj (s, k) rj hrawj hj hlast
  obtain ⟨_, kv, _, herj, hsk⟩ := lineDef_inv _ _ _ _ _ hdefj
  have hlt : j < (pySplitlinesKeepends t).length := by
    by_contra hge
    rw [List.getElem?_eq_none (by omega)] at hrawj
    exact Option.noConfusion hrawj
  have hns : normSection s = s := by
    have : s = normSection (scanPfx (pySplitlinesKeepends t) j).cur :=
      congrArg Prod.fst hsk
    rw [this]
    exact pyStrip_idem _
  have hnk : normKey k = k := by
    have : k = normKey kv.key := congrArg Prod.snd hsk
    rw [this]
    exact pyStrip_idem _
  have hidx : rj.line_index = j := by
    rw [herj]
    show (scanLines initState ((pySplitlinesKeepends t).take j)).idx = j
    rw [scanLines_idx]
    simp [initState, List.length_take]
    omega
  have hset : (loadDoc t).set disk s k w =
      { loadDoc t with
          lines := (loadDoc t).lines.set rj.line_index
            (rj.pfx ++ rj.key ++ [61] ++ w ++ rj.suffix ++
              (if ((loadDoc t).lines.getD rj.line_index []).getLast? = some 10
                then [10] else [])),
          refs := upsert (loadDoc t).refs (s, k) { rj with value := w } } := by
    unfold IniDocument.set
    simp only [hns, hnk, hlookup]
  refine ⟨?_, ?_, ?_, loadDoc_keys_nodup t⟩
  · unfold IniDocument.get
    rw [hns, hnk, hlookup]
    rfl
  · exact ⟨_, by rw [hset, hidx]⟩
  · rw [hset]
    show ((loadDoc t).lines.set rj.line_index _)[i]? = (loadDoc t).lines[i]?
    rw [hidx]
    exact List.getElem?_set_ne (by omega)

/-- Witness for C4 on a document with a duplicated key. -/
theorem c4_witness :
    (loadDoc (pstr "[A]\nfoo=1\nfoo=2\n")).get (pstr "A") (pstr "foo")
        = some (pstr "2") ∧
    ((loadDoc (pstr "[A]\nfoo=1\nfoo=2\n")).set [] (pstr "A") (pstr "foo")
        (pstr "9")).lines[1]?
      = (loadDoc (pstr "[A]\nfoo=1\nfoo=2\n")).lines[1]? := by
  have hlen : (pySplitlinesKeepends (pstr "[A]\nfoo=1\nfoo=2\n")).length = 3 := by decide
  have h := c4_last_duplicate_wins (pstr "[A]\nfoo=1\nfoo=2\n") (pstr "A") (pstr "foo") 1 2
      ⟨pstr "A", pstr "foo", pstr "1", 1, [], [10]⟩
      ⟨pstr "A", pstr "foo", pstr "2", 2, [], [10]⟩ [] (pstr "9")
      (by decide) (by decide) (by decide) ?_
  · exact ⟨h.1, h.2.2.1⟩
  · intro m e' hm
    rw [lineDefAt_none_of_ge _ m (by omega)]
    exact fun hcontra => Option.noConfusion hcontra

/-- Witness for C7 at a concrete document containing a comment line,
a malformed line and a key line. -/
theorem c7_witness :
    (∀ p ∈ (loadDoc (pstr ";c\njunk\n[A]\nk=v\n")).refs, p.2.line_index ≠ 1) ∧
    matchSection (pstr ";x") = none ∧ matchKeyVal (pstr ";x") = none :=
  ⟨c7_load_total_and_permissive.2.2.2.1 (pstr ";c\njunk\n[A]\nk=v\n") 1 (pstr "junk\n")
      (by decide) (by decide) (by decide),
    (c7_load_total_and_permissive.2.2.2.2 (pstr "x")).1,
    (c7_load_total_and_permissive.2.2.2.2 (pstr "x")).2⟩

end HSSettings
